import Mathlib

/-!
Verification of the scheduling and run-supervision engine of
`stbt-batch.d/run.py` (stb-tester batch runner), as a shallow embedding.

Conventions of the embedding:
* Exit statuses of the child process are `Int` (Python ints; `child.wait()`
  may return negative values for signal deaths).
* `args.keep_going` comes from an argparse `action="count"` option with no
  default, so it is `None` when the flag is absent: we model it as
  `Option Nat`, with the Python 2 comparison semantics `None > 0 = False`,
  `None >= 2 = False`.
* Wall-clock durations and the random draws of `random.uniform` are
  rationals.
* Generators are modelled as explicit step functions on a state type; each
  resumption of the `shuffle` generator consumes the measured duration of
  the previous yield (the value of `time.time() - start_time`) and the
  random value used by `weighted_choice`.
-/

namespace StbtBatchRun

/-! ### Batch Controller decision policy (`main`, lines 127-141) -/

/-- Python 2 semantics of `kg > m` when `kg` is `None` or an int:
`None > m` is `False` for a non-negative int `m`. -/
def pyCountGt (kg : Option Nat) (m : Nat) : Bool :=
  match kg with
  | none => false
  | some k => m < k

/-- Python 2 semantics of `kg >= m` when `kg` is `None` or an int. -/
def pyCountGe (kg : Option Nat) (m : Nat) : Bool :=
  match kg with
  | none => false
  | some k => m ≤ k

/-- The keep-going level as a number: `None` behaves exactly like level 0. -/
def kgLevel (kg : Option Nat) : Nat := kg.getD 0

/-- The per-iteration continue/stop decision of the batch loop
(`run.py` lines 129-141): first the unrecoverable-error sentinel check,
then the exit-status classification against the keep-going level.
Returns `true` for CONTINUE and `false` for STOP. -/
def continueDecision (sentinelExists : Bool) (last_exit_status : Int)
    (keep_going : Option Nat) : Bool :=
  if sentinelExists then
    false
  else if last_exit_status = 0 then
    true
  else if 2 ≤ last_exit_status ∧ pyCountGt keep_going 0 then
    true
  else if pyCountGe keep_going 2 then
    true
  else
    false

/-! ### Final batch exit code (`main`, lines 95-96, 121, 127-128, 143-150) -/

/-- One iteration of the counter updates of the batch loop:
`run_count += 1`; `last_exit_status = run_one(...)`;
`if last_exit_status != 0: failure_count += 1`.
State is `(run_count, failure_count, last_exit_status)`. -/
def batchCountersStep (acc : Nat × Nat × Int) (e : Int) : Nat × Nat × Int :=
  (acc.1 + 1, (if e ≠ 0 then acc.2.1 + 1 else acc.2.1), e)

/-- The counters after a batch that observed the given sequence of exit
statuses, starting from `run_count = 0`, `failure_count = 0`,
`last_exit_status = 0`. -/
def batchCounters (statuses : List Int) : Nat × Nat × Int :=
  statuses.foldl batchCountersStep (0, 0, 0)

/-- The final exit code computation (`run.py` lines 143-150). -/
def batchExitCode (run_count failure_count : Nat) (last_exit_status : Int) :
    Int :=
  if run_count = 1 then last_exit_status
  else if failure_count = 0 then 0
  else 1

/-- The overall batch result for a given sequence of run exit statuses. -/
def batchResult (statuses : List Int) : Int :=
  batchExitCode (batchCounters statuses).1 (batchCounters statuses).2.1
    (batchCounters statuses).2.2

/-! ### `weighted_choice` (lines 318-329) -/

/-- The accumulation loop of `weighted_choice`: `upto` is the running
prefix sum; returns the first item whose weight pushes the prefix sum
strictly above `r`, and `none` when the loop falls through to the
`assert False` line. -/
def weightedChoiceGo (r : ℚ) : List (α × ℚ) → ℚ → Option α
  | [], _ => none
  | (c, w) :: rest, upto =>
      if r < upto + w then some c else weightedChoiceGo r rest (upto + w)

/-- `weighted_choice(choices)` with the uniform draw `r` made explicit:
the source computes `total`, draws `r = random.uniform(0, total)` and then
scans; here `r` is an input. Result `none` models reaching the
`assert False, "Shouldn't get here"` line. -/
def weighted_choice (choices : List (α × ℚ)) (r : ℚ) : Option α :=
  weightedChoiceGo r choices 0

/-- `total = sum(w for c, w in choices)`. -/
def weightTotal (choices : List (α × ℚ)) : ℚ :=
  (choices.map Prod.snd).sum

/-! ### `make_rundir` (lines 172-184) -/

/-- Errors raised by `os.mkdir`, split on the `errno == errno.EEXIST`
test of the source. -/
inductive OsError
  | eexist
  | other (code : Nat)
deriving DecidableEq

/-- `make_rundir`, with the outcome of the `os.mkdir` call of attempt `n`
(the directory name regenerated from the clock each time) supplied by the
oracle `attempt`. The source loops `for n in range(2)`: a first failure
with `EEXIST` sleeps and retries once; any other first failure, and any
failure on the retry, is re-raised. -/
def make_rundir (attempt : Nat → Except OsError String) :
    Except OsError String :=
  match attempt 0 with
  | Except.ok rundir => Except.ok rundir
  | Except.error e =>
      match e with
      | OsError.eexist => attempt 1
      | OsError.other c => Except.error (OsError.other c)

/-! ### `setup_dirs` (lines 204-221) and its side-effect trace -/

/-- External side effects performed by `setup_dirs`: `mkdir_p`, the
atomic `symlink_f` repointing, and `state_sender.set` of the
`active_results_directory` key. -/
inductive Ev
  | mkdirp (d : String)
  | symlinkF (source link_name : String)
  | setActive (v : Option String)
deriving DecidableEq

/-- `os.path.join` for the simple relative-component case used here. -/
def osPathJoin (a b : String) : String := a ++ "/" ++ b

/-- `setup_dirs(outputdir, tag, state_sender)` as a scoped-acquisition
construct. `abspath` models `os.path.abspath` (resolution against the
current working directory). The body of the `with` block is a function of
the yielded run-directory path returning its own event trace and its
outcome (`Except.error` models an exception escaping the body). The
`try`/`finally` of the source runs the two release effects - repointing
`latest<tag>` and clearing the active pointer - on every exit path, so
they are appended to the trace for both outcomes. -/
def setup_dirs (abspath : String → String) (outputdir tag rundir : String)
    (body : String → List Ev × Except ε β) : List Ev × Except ε β :=
  let rdpath := osPathJoin outputdir rundir
  let acquire : List Ev :=
    [Ev.mkdirp outputdir,
     Ev.symlinkF rundir (osPathJoin outputdir (String.append "current" tag)),
     Ev.setActive (some (abspath rdpath))]
  let b := body rdpath
  let release : List Ev :=
    [Ev.symlinkF rundir (osPathJoin outputdir (String.append "latest" tag)),
     Ev.setActive none]
  (acquire ++ b.1 ++ release, b.2)

/-! ### `loop_tests` (lines 310-315) -/

/-- State of the `loop_tests` generator between yields: the tests still
pending in the current pass, the full list (for the next pass), and the
repeat flag. -/
structure LoopState (α : Type) where
  pending : List α
  full : List α
  rep : Bool
deriving DecidableEq

/-- One resumption of the `loop_tests` generator: yield the next test of
the current pass; at the end of a pass, return (`none`) when `repeat` is
false, else start the next pass. (With an empty input list and
`repeat=True` the source spins forever without yielding; that state is
mapped to `none` as well - no claim concerns the empty input.) -/
def loopTestsStep : LoopState α → Option (α × LoopState α)
  | ⟨t :: rest, full, rep⟩ => some (t, ⟨rest, full, rep⟩)
  | ⟨[], full, rep⟩ =>
      if rep then
        match full with
        | [] => none
        | t :: rest => some (t, ⟨rest, full, rep⟩)
      else none

/-- Initial generator state of `loop_tests(test_cases, repeat)`. -/
def loop_tests (test_cases : List α) (rep : Bool) : LoopState α :=
  ⟨test_cases, test_cases, rep⟩

/-- The first `n` yields of the `loop_tests` generator, paired with the
state afterwards (`none` once the generator has finished). -/
def loopTake : Nat → Option (LoopState α) → List α × Option (LoopState α)
  | 0, g => ([], g)
  | _ + 1, none => ([], none)
  | n + 1, some s =>
      match loopTestsStep s with
      | none => ([], none)
      | some (t, s1) =>
          let rest := loopTake n (some s1)
          (t :: rest.1, rest.2)

/-! ### `random.shuffle` and the `shuffle` scheduler (lines 332-352) -/

/-- The Python tuple-assignment swap `x[i], x[j] = x[j], x[i]`; out of
range indices leave the list unchanged (unreachable in the shuffle loop,
whose indices are always in range). -/
def listSwap (l : List α) (i j : Nat) : List α :=
  match l.get? i, l.get? j with
  | some a, some b => (l.set i b).set j a
  | _, _ => l

/-- Modelled from the spec: `random.shuffle` (Python standard library, not
part of this repository) "randomly permutes the input list". Modelled as
its Fisher-Yates loop `for i in reversed(range(1, len(x))): j =
int(random() * (i+1)); x[i], x[j] = x[j], x[i]`, with the drawn index for
each `i` supplied by the oracle `rnd` (reduced mod `i+1`, as the draw is
uniform on `0..i`). The argument counts down from `len(x) - 1` to 1. -/
def pyShuffleGo (rnd : Nat → Nat) : Nat → List α → List α
  | 0, l => l
  | i + 1, l => pyShuffleGo rnd i (listSwap l (i + 1) (rnd (i + 1) % (i + 2)))

/-- Modelled from the spec: the whole of `random.shuffle(x)`, starting the
Fisher-Yates loop at index `len(x) - 1`. -/
def py_shuffle (rnd : Nat → Nat) (l : List α) : List α :=
  pyShuffleGo rnd (l.length - 1) l

/-- Python dict insertion `d[k] = v`: overwrite in place when the key is
present, else append. -/
def dictInsert [DecidableEq α] (d : List (α × β)) (k : α) (v : β) :
    List (α × β) :=
  if (d.map Prod.fst).contains k then
    d.map (fun p => if p.1 = k then (k, v) else p)
  else d ++ [(k, v)]

/-- The dict comprehension `{test: [0.0, 0] for test in test_cases}`:
every key maps to the timing entry `(total_duration, run_count) = (0, 0)`. -/
def dictInit [DecidableEq α] (keys : List α) : List (α × ℚ × Nat) :=
  keys.foldl (fun d t => dictInsert d t (0, 0)) []

/-- The two updates `timings[test][0] += duration; timings[test][1] += 1`
performed after a yielded run completes. -/
def dictUpdate [DecidableEq α] (d : List (α × ℚ × Nat)) (k : α) (dur : ℚ) :
    List (α × ℚ × Nat) :=
  d.map fun p => if p.1 = k then (p.1, p.2.1 + dur, p.2.2 + 1) else p

/-- The weight list `[(k, v[1] / v[0]) for k, v in timings.items()]`.
Python raises `ZeroDivisionError` when some entry has
`total_duration == 0`; that is the `none` result. -/
def buildWeights (d : List (α × ℚ × Nat)) : Option (List (α × ℚ)) :=
  if d.all (fun p => decide (p.2.1 ≠ 0)) then
    some (d.map fun p => (p.1, (p.2.2 : ℚ) / p.2.1))
  else none

/-- State of the `shuffle` generator between yields: the tests of the
randomized first pass not yet yielded, the test currently running (whose
timing entry is updated at the next resumption), and the timings dict. -/
structure ShuffleGen (α : Type) where
  pending : List α
  current : Option α
  timings : List (α × ℚ × Nat)
deriving DecidableEq

/-- Result of resuming the `shuffle` generator once: a yielded test with
the successor state, normal termination (`StopIteration`), or an escaping
exception (`ZeroDivisionError` in the weight list, or the
`weighted_choice` assertion). -/
inductive StepRes (α : Type)
  | yld (t : α) (s : ShuffleGen α)
  | stop
  | err
deriving DecidableEq

/-- The timing update performed at the start of a resumption: charge the
measured duration of the run that just finished to the current test (no
update on the very first resumption, when no test has run yet). -/
def updTimings [DecidableEq α] (s : ShuffleGen α) (dur : ℚ) :
    List (α × ℚ × Nat) :=
  match s.current with
  | none => s.timings
  | some t => dictUpdate s.timings t dur

/-- One resumption of the `shuffle` generator: update the timings for the
run that just completed (`dur` is the observed `time.time() - start_time`),
then yield the next test of the first pass if any remain; after the first
pass, stop unless `repeat`, else draw by `weighted_choice` with the
uniform value `r`. -/
def shuffle_step [DecidableEq α] (rep : Bool) (dur r : ℚ)
    (s : ShuffleGen α) : StepRes α :=
  let ts := updTimings s dur
  match s.pending with
  | t :: rest => StepRes.yld t ⟨rest, some t, ts⟩
  | [] =>
      if rep then
        match buildWeights ts with
        | none => StepRes.err
        | some ws =>
            match weighted_choice ws r with
            | some t => StepRes.yld t ⟨[], some t, ts⟩
            | none => StepRes.err
      else StepRes.stop

/-- The state of the `shuffle` generator at its first resumption:
`test_cases = test_cases[:]` copied, permuted by `random.shuffle`, and the
timings dict initialized over the permuted list. -/
def shuffle_init [DecidableEq α] (rnd : Nat → Nat) (test_cases : List α) :
    ShuffleGen α :=
  let tc := py_shuffle rnd test_cases
  ⟨tc, none, dictInit tc⟩

/-- Whether the `shuffle` generator is still suspended mid-iteration, has
terminated normally, or has died with an exception. -/
inductive GenOutcome (α : Type)
  | active (s : ShuffleGen α)
  | stopped
  | failed
deriving DecidableEq

/-- Drive the `shuffle` generator `n` resumptions, the step at index `i`
consuming the duration `durs i` and the uniform draw `rs i`; collects the
yielded tests and the outcome. A finished or dead generator yields
nothing further. -/
def runShuffle [DecidableEq α] (rep : Bool) (durs rs : Nat → ℚ) :
    Nat → Nat → GenOutcome α → List α × GenOutcome α
  | _, 0, g => ([], g)
  | i, n + 1, GenOutcome.active s =>
      match shuffle_step rep (durs i) (rs i) s with
      | StepRes.yld t s1 =>
          let rest := runShuffle rep durs rs (i + 1) n (GenOutcome.active s1)
          (t :: rest.1, rest.2)
      | StepRes.stop => ([], GenOutcome.stopped)
      | StepRes.err => ([], GenOutcome.failed)
  | _, _ + 1, GenOutcome.stopped => ([], GenOutcome.stopped)
  | _, _ + 1, GenOutcome.failed => ([], GenOutcome.failed)

/-! ### Python list identity, for the `test_cases = test_cases[:]` copy -/

/-- A heap of Python list objects: references are numbers below `fresh`. -/
structure PyListStore (α : Type) where
  heap : Nat → List α
  fresh : Nat

/-- The slice copy `test_cases[:]`: allocates a fresh list object with the
same contents and returns its reference. -/
def copySlice (σ : PyListStore α) (src : Nat) : Nat × PyListStore α :=
  (σ.fresh,
   ⟨fun x => if x = σ.fresh then σ.heap src else σ.heap x, σ.fresh + 1⟩)

/-- `random.shuffle(x)` permutes the list object `r` in place; no other
object changes. -/
def randomShuffleInPlace (rnd : Nat → Nat) (σ : PyListStore α) (r : Nat) :
    PyListStore α :=
  ⟨fun x => if x = r then py_shuffle rnd (σ.heap r) else σ.heap x, σ.fresh⟩

/-- Lines 333-334 of the source at the store level:
`test_cases = test_cases[:]` then `random.shuffle(test_cases)`. Returns
the generator's private reference and the store afterwards. The rest of
the generator body performs no list mutation (it only reads the private
copy and mutates the timings dict), so the store after any number of
draws is the store returned here. -/
def shuffleSetupStore (rnd : Nat → Nat) (σ : PyListStore α) (src : Nat) :
    Nat × PyListStore α :=
  let c := copySlice σ src
  (c.1, randomShuffleInPlace rnd c.2 c.1)

/-- State invariant of the `shuffle` generator claimed by the spec,
strengthened so that it is inductive: every timing entry satisfies
`run_count = 0 ↔ total_duration = 0`, durations are non-negative, and
every entry has either been updated at least once or belongs to a test
that is still the current one or still pending in the first pass. -/
def ShuffleInvariant (s : ShuffleGen γ) : Prop :=
  (∀ p ∈ s.timings, (p.2.2 = 0 ↔ p.2.1 = 0))
  ∧ (∀ p ∈ s.timings, 0 ≤ p.2.1)
  ∧ (∀ p ∈ s.timings,
      1 ≤ p.2.2 ∨ s.current = some p.1 ∨ p.1 ∈ s.pending)

/-! ### Helper lemmas -/

/-- Folding the counter update over a status list from an arbitrary
start state: `run_count` grows by the list length, `failure_count` by the
number of nonzero statuses, and `last_exit_status` becomes the last
status (or stays put for an empty list). -/
theorem foldl_batchCountersStep (l : List Int) (a b : Nat) (c : Int) :
    List.foldl batchCountersStep (a, b, c) l =
      (a + l.length, b + l.countP (fun e => decide (e ≠ 0)), l.getLastD c) := by
  induction l generalizing a b c with
  | nil => simp
  | cons x xs ih =>
      simp only [List.foldl_cons, batchCountersStep, ih, List.countP_cons,
        List.length_cons, List.getLastD_cons, Prod.mk.injEq]
      by_cases hx : x = 0 <;> simp [hx] <;> omega

/-- The accumulation loop of `weighted_choice` returns an element of the
list whenever the running prefix sum is still at most `r` but the full
sum strictly exceeds `r`. -/
theorem weightedChoiceGo_total (r : ℚ) :
    ∀ (l : List (α × ℚ)) (upto : ℚ), upto ≤ r →
      r < upto + (l.map Prod.snd).sum →
      ∃ c, weightedChoiceGo r l upto = some c ∧ c ∈ l.map Prod.fst := by
  intro l
  induction l with
  | nil => intro upto h1 h2; simp at h2; exact absurd h2 (not_lt.mpr h1)
  | cons p rest ih =>
      intro upto h1 h2
      by_cases hlt : r < upto + p.2
      · exact ⟨p.1, by simp [weightedChoiceGo, hlt], by simp⟩
      · push_neg at hlt
        have h2' : r < (upto + p.2) + (rest.map Prod.snd).sum := by
          simp only [List.map_cons, List.sum_cons] at h2
          linarith
        obtain ⟨c, hc, hmem⟩ := ih (upto + p.2) hlt h2'
        refine ⟨c, ?_, by simp [hmem]⟩
        simpa [weightedChoiceGo, not_lt.mpr hlt] using hc

/-! ### Claims about the decision policy and the exit code -/

/-- C1: the batch controller continues to the next iteration iff the
unrecoverable-error sentinel is absent and either the exit status is 0,
or the status is at least 2 with keep-going level at least 1, or the
keep-going level is at least 2; in every other case it stops. The last
four conjuncts are the four concrete transitions named by the claim. -/
theorem continueDecision_policy (sentinel : Bool) (e : Int)
    (kg : Option Nat) :
    (continueDecision sentinel e kg = true ↔
      (sentinel = false ∧
        (e = 0 ∨ (2 ≤ e ∧ 1 ≤ kgLevel kg) ∨ 2 ≤ kgLevel kg)))
    ∧ continueDecision false 1 none = false
    ∧ continueDecision false 2 (some 1) = true
    ∧ continueDecision false 1 (some 1) = false
    ∧ (e ≠ 0 → continueDecision false e (some 2) = true) := by
  refine ⟨?_, by decide, by decide, by decide, ?_⟩
  · cases kg with
    | none =>
        cases sentinel <;>
          simp [continueDecision, pyCountGt, pyCountGe, kgLevel]
    | some k =>
        cases sentinel <;>
          simp [continueDecision, pyCountGt, pyCountGe, kgLevel] <;>
          omega
  · intro he
    simp [continueDecision, pyCountGt, pyCountGe, he]

/-- Witness for C1 at concrete inputs: keep_going=2 with exit status 5
continues. -/
theorem continueDecision_policy_witness :
    continueDecision false 5 (some 2) = true :=
  (continueDecision_policy false 5 (some 2)).2.2.2.2 (by decide)

/-- C9: when the unrecoverable-error sentinel is present after a run, the
controller stops regardless of the exit status and of the keep-going
level, including exit status 0 and keep_going=2. -/
theorem sentinel_always_stops (e : Int) (kg : Option Nat) :
    continueDecision true e kg = false := rfl

/-- C2: the batch exit code is the single run's raw status when exactly
one run was executed, else 0 when every run exited 0 and 1 when some run
did not. -/
theorem batchExitCode_policy (statuses : List Int) :
    (∀ e, statuses = [e] → batchResult statuses = e)
    ∧ (statuses.length ≠ 1 →
        ((∀ e ∈ statuses, e = 0) → batchResult statuses = 0)
        ∧ ((∃ e ∈ statuses, e ≠ 0) → batchResult statuses = 1)) := by
  have hc : batchCounters statuses =
      (statuses.length, statuses.countP (fun e => decide (e ≠ 0)),
        statuses.getLastD 0) := by
    have h := foldl_batchCountersStep statuses 0 0 0
    rw [batchCounters, h]
    simp
  constructor
  · rintro e rfl
    simp [batchResult, batchCounters, batchCountersStep, batchExitCode]
  · intro hlen
    have hbr : batchResult statuses =
        batchExitCode statuses.length
          (statuses.countP (fun e => decide (e ≠ 0)))
          (statuses.getLastD 0) := by
      rw [batchResult, hc]
    constructor
    · intro hall
      have hcz : statuses.countP (fun e => decide (e ≠ 0)) = 0 := by
        rw [List.countP_eq_zero]
        intro e he
        simp [hall e he]
      rw [hbr, batchExitCode, if_neg hlen, if_pos hcz]
    · intro hex
      obtain ⟨e, he, hne⟩ := hex
      have hcp : 0 < statuses.countP (fun e => decide (e ≠ 0)) := by
        apply List.countP_pos_iff.mpr
        exact ⟨e, he, by simpa using hne⟩
      have hnz : statuses.countP (fun e => decide (e ≠ 0)) ≠ 0 :=
        Nat.pos_iff_ne_zero.mp hcp
      rw [hbr, batchExitCode, if_neg hlen, if_neg hnz]

/-- Witness for C2 at concrete inputs: a single run exiting 3 yields
batch exit code 3; two runs with one failure yield 1. -/
theorem batchExitCode_policy_witness :
    batchResult [3] = 3 ∧ batchResult [0, 1] = 1 :=
  ⟨(batchExitCode_policy [3]).1 3 rfl,
   ((batchExitCode_policy [0, 1]).2 (by decide)).2 ⟨1, by decide, by decide⟩⟩

/-! ### Claim about `weighted_choice` -/

/-- C3: for a non-empty choice list with non-negative weights of positive
total, and any draw `r` with `0 ≤ r < total`, `weighted_choice` returns
some input item (so the `assert False` line is unreachable under these
preconditions). -/
theorem weighted_choice_total (choices : List (α × ℚ)) (r : ℚ)
    (_hne : choices ≠ []) (_hw : ∀ p ∈ choices, 0 ≤ p.2)
    (_hpos : 0 < weightTotal choices) (hr0 : 0 ≤ r)
    (hrt : r < weightTotal choices) :
    ∃ c, weighted_choice choices r = some c ∧ c ∈ choices.map Prod.fst := by
  have := weightedChoiceGo_total r choices 0 hr0 (by
    simpa [weightTotal] using hrt)
  simpa [weighted_choice] using this

/-- Witness for C3 at a concrete input: two items with weights 2 and 3
and a draw of 4 return an item of the list. -/
theorem weighted_choice_total_witness :
    ∃ c, weighted_choice [(10, (2 : ℚ)), (20, 3)] 4 = some c ∧
      c ∈ ([(10, (2 : ℚ)), (20, 3)].map Prod.fst) :=
  weighted_choice_total [(10, (2 : ℚ)), (20, 3)] 4 (by decide)
    (by decide) (by norm_num [weightTotal]) (by norm_num)
    (by norm_num [weightTotal])

/-! ### Claim about `make_rundir` -/

/-- C7: run-directory allocation makes at most two creation attempts: a
success returns at once; a first failure with `EEXIST` makes exactly one
retry whose outcome (success or any error) is final; a first failure with
any other error is propagated without retrying. The last conjunct states
that the result depends only on the outcomes of attempts 0 and 1, so no
third attempt is ever consulted. -/
theorem make_rundir_attempts (attempt : Nat → Except OsError String) :
    (∀ d, attempt 0 = Except.ok d → make_rundir attempt = Except.ok d)
    ∧ (attempt 0 = Except.error OsError.eexist →
        make_rundir attempt = attempt 1)
    ∧ (∀ c, attempt 0 = Except.error (OsError.other c) →
        make_rundir attempt = Except.error (OsError.other c))
    ∧ (∀ g : Nat → Except OsError String, attempt 0 = g 0 →
        attempt 1 = g 1 → make_rundir attempt = make_rundir g) := by
  refine ⟨?_, ?_, ?_, ?_⟩
  · intro d h; simp [make_rundir, h]
  · intro h; simp [make_rundir, h]
  · intro c h; simp [make_rundir, h]
  · intro g h0 h1
    simp only [make_rundir, h0, h1]

/-- Witness for C7 at a concrete oracle: a first `EEXIST` collision
followed by a successful retry returns the retried directory. -/
theorem make_rundir_attempts_witness :
    make_rundir (fun n => if n = 0 then Except.error OsError.eexist
      else Except.ok "2015-01-01_00.00.01") =
      Except.ok "2015-01-01_00.00.01" :=
  ((make_rundir_attempts (fun n => if n = 0 then
      Except.error OsError.eexist
    else Except.ok "2015-01-01_00.00.01")).2.1 rfl).trans rfl

/-! ### Claim about `setup_dirs` -/

/-- C8: while the run is active the active pointer holds the absolute run
directory path, and on every exit from the span - the body finishing
normally or raising - the trace ends by repointing `latest<tag>` to the
run directory and then clearing the pointer to null. -/
theorem setup_dirs_scoped_release (abspath : String → String)
    (outputdir tag rundir : String) (bodyEvs : List Ev)
    (res : Except ε β) :
    (setup_dirs abspath outputdir tag rundir (fun _ => (bodyEvs, res))).2
        = res
    ∧ (setup_dirs abspath outputdir tag rundir
        (fun _ => (bodyEvs, res))).1 =
      [Ev.mkdirp outputdir,
       Ev.symlinkF rundir
         (osPathJoin outputdir (String.append "current" tag)),
       Ev.setActive (some (abspath (osPathJoin outputdir rundir)))]
      ++ bodyEvs
      ++ [Ev.symlinkF rundir
            (osPathJoin outputdir (String.append "latest" tag)),
          Ev.setActive none]
    ∧ ((setup_dirs abspath outputdir tag rundir
        (fun _ => (bodyEvs, res))).1).getLast? = some (Ev.setActive none) := by
  refine ⟨rfl, rfl, ?_⟩
  have hsplit : (setup_dirs abspath outputdir tag rundir
      (fun _ => (bodyEvs, res))).1 =
      ([Ev.mkdirp outputdir,
        Ev.symlinkF rundir
          (osPathJoin outputdir (String.append "current" tag)),
        Ev.setActive (some (abspath (osPathJoin outputdir rundir)))]
       ++ bodyEvs
       ++ [Ev.symlinkF rundir
             (osPathJoin outputdir (String.append "latest" tag))])
      ++ [Ev.setActive none] := by
    simp [setup_dirs]
  rw [hsplit, List.getLast?_concat]

/-! ### Claims about `loop_tests` -/

/-- Consuming one full pass of the `loop_tests` generator yields the
pending list in order and leaves the generator at the end of the pass. -/
theorem loopTake_pass (p full : List α) (rep : Bool) :
    loopTake p.length (some ⟨p, full, rep⟩) = (p, some ⟨[], full, rep⟩) := by
  induction p with
  | nil => rfl
  | cons t rest ih => simp [loopTake, loopTestsStep, List.length_cons, ih]

/-- Driving a finished generator yields nothing. -/
theorem loopTake_none (b : Nat) :
    loopTake b (none : Option (LoopState α)) = ([], none) := by
  cases b <;> rfl

/-- Splitting a `loopTake` drive into two stages. -/
theorem loopTake_add (a b : Nat) (g : Option (LoopState α)) :
    loopTake (a + b) g =
      ((loopTake a g).1 ++ (loopTake b (loopTake a g).2).1,
       (loopTake b (loopTake a g).2).2) := by
  induction a generalizing g with
  | zero => simp [loopTake]
  | succ a ih =>
      rw [Nat.succ_add]
      cases g with
      | none => simp [loopTake, loopTake_none]
      | some s =>
          cases hstep : loopTestsStep s with
          | none => simp [loopTake, hstep, loopTake_none]
          | some ts =>
              obtain ⟨t, s1⟩ := ts
              simp [loopTake, hstep, ih]

/-- C6: the sequential scheduler yields the input in original order: with
repeat off, one full pass then termination; with repeat on, one full pass
arrives back at the start-of-pass state and every further pass replays
the list (fourth conjunct), so the sequence is cyclic - in particular the
first 10 yields for a two-element list alternate (fifth conjunct). -/
theorem loop_tests_order (tcs : List α) (a b : α) :
    loopTake tcs.length (some (loop_tests tcs false)) =
      (tcs, some ⟨[], tcs, false⟩)
    ∧ loopTake (tcs.length + 1) (some (loop_tests tcs false)) = (tcs, none)
    ∧ loopTake tcs.length (some (loop_tests tcs true)) =
      (tcs, some ⟨[], tcs, true⟩)
    ∧ (tcs ≠ [] →
        loopTake tcs.length (some ⟨[], tcs, true⟩) =
          (tcs, some ⟨[], tcs, true⟩))
    ∧ (loopTake 10 (some (loop_tests [a, b] true))).1 =
      [a, b, a, b, a, b, a, b, a, b] := by
  refine ⟨loopTake_pass tcs tcs false, ?_, loopTake_pass tcs tcs true,
    ?_, ?_⟩
  · rw [loopTake_add tcs.length 1, loop_tests, loopTake_pass]
    simp [loopTake, loopTestsStep]
  · intro hne
    obtain ⟨t, rest, rfl⟩ := List.exists_cons_of_ne_nil hne
    simp only [List.length_cons]
    rw [show rest.length + 1 = 1 + rest.length by omega, loopTake_add]
    have h1 : loopTake 1 (some (⟨[], t :: rest, true⟩ : LoopState α)) =
        ([t], some ⟨rest, t :: rest, true⟩) := rfl
    rw [h1]
    rw [loopTake_pass rest (t :: rest) true]
    simp
  · rfl

/-- Witness for C6 at a concrete input: from the end of a pass over
[0, 1] with repeat on, two more yields replay [0, 1] and return to the
same state. -/
theorem loop_tests_order_witness :
    loopTake 2 (some (⟨[], [0, 1], true⟩ : LoopState Nat)) =
      ([0, 1], some ⟨[], [0, 1], true⟩) :=
  (loop_tests_order [0, 1] 0 1).2.2.2.1 (by decide)

/-! ### Claims about the `shuffle` scheduler: first pass -/

/-- Setting position `n` shifts the count of any value by exchanging the
contribution of the old element for that of the new one. -/
theorem count_set_exchange [DecidableEq γ] (l : List γ) (n : Nat)
    (h : n < l.length) (v x : γ) :
    (l.set n v).count x + (if l[n] = x then 1 else 0) =
      l.count x + (if v = x then 1 else 0) := by
  rw [List.set_eq_take_cons_drop v h]
  conv_rhs => rw [← List.take_append_drop n l,
    ← List.getElem_cons_drop l n h]
  simp only [List.count_append, List.count_cons, beq_iff_eq]
  by_cases h1 : l[n] = x <;> by_cases h2 : v = x <;> simp [h1, h2] <;> omega

/-- The tuple-assignment swap produces a permutation of the list. -/
theorem listSwap_perm [DecidableEq γ] (l : List γ) (i j : Nat) :
    (listSwap l i j).Perm l := by
  cases hgi : l.get? i with
  | none =>
      have hred : listSwap l i j = l := by
        unfold listSwap
        rw [hgi]
      rw [hred]
  | some a =>
      cases hgj : l.get? j with
      | none =>
          have hred : listSwap l i j = l := by
            unfold listSwap
            rw [hgi, hgj]
          rw [hred]
      | some b =>
          have hred : listSwap l i j = (l.set i b).set j a := by
            unfold listSwap
            rw [hgi, hgj]
          rw [hred]
          rw [List.get?_eq_getElem?] at hgi hgj
          obtain ⟨hi, ha⟩ := List.getElem?_eq_some.mp hgi
          obtain ⟨hj, hb⟩ := List.getElem?_eq_some.mp hgj
          apply List.perm_iff_count.mpr
          intro x
          have hj1 : j < (l.set i b).length := by simpa using hj
          have e1 := count_set_exchange (l.set i b) j hj1 a x
          have e2 := count_set_exchange l i hi b x
          have hgetj : (l.set i b)[j] = b := by
            rw [List.getElem_set]
            by_cases hij : i = j
            · rw [if_pos hij]
            · rw [if_neg hij, hb]
          rw [hgetj] at e1
          rw [ha] at e2
          omega

/-- The Fisher-Yates loop produces a permutation of its input. -/
theorem pyShuffleGo_perm [DecidableEq γ] (rnd : Nat → Nat) :
    ∀ (i : Nat) (l : List γ), (pyShuffleGo rnd i l).Perm l := by
  intro i
  induction i with
  | zero => intro l; exact List.Perm.refl l
  | succ i ih =>
      intro l
      exact (ih _).trans (listSwap_perm l (i + 1) (rnd (i + 1) % (i + 2)))

/-- The `random.shuffle` model produces a permutation of its input. -/
theorem py_shuffle_perm [DecidableEq γ] (rnd : Nat → Nat) (l : List γ) :
    (py_shuffle rnd l).Perm l :=
  pyShuffleGo_perm rnd (l.length - 1) l

/-- Unfolding one resumption of a live generator. -/
theorem runShuffle_succ_active [DecidableEq γ] (rep : Bool)
    (durs rs : Nat → ℚ) (i n : Nat) (s : ShuffleGen γ) :
    runShuffle rep durs rs i (n + 1) (GenOutcome.active s) =
      match shuffle_step rep (durs i) (rs i) s with
      | StepRes.yld t s1 =>
          (t :: (runShuffle rep durs rs (i + 1) n (GenOutcome.active s1)).1,
           (runShuffle rep durs rs (i + 1) n (GenOutcome.active s1)).2)
      | StepRes.stop => ([], GenOutcome.stopped)
      | StepRes.err => ([], GenOutcome.failed) := rfl

/-- Driving the generator through its whole pending list with repeat off
yields exactly that list and then terminates. -/
theorem runShuffle_pending_stop [DecidableEq γ] (durs rs : Nat → ℚ) :
    ∀ (p : List γ) (cur : Option γ) (tmg : List (γ × ℚ × Nat)) (i : Nat),
      runShuffle false durs rs i (p.length + 1)
        (GenOutcome.active ⟨p, cur, tmg⟩) = (p, GenOutcome.stopped) := by
  intro p
  induction p with
  | nil => intro cur tmg i; rfl
  | cons t rest ih =>
      intro cur tmg i
      have hstep : shuffle_step false (durs i) (rs i)
          (⟨t :: rest, cur, tmg⟩ : ShuffleGen γ) =
          StepRes.yld t
            ⟨rest, some t, updTimings ⟨t :: rest, cur, tmg⟩ (durs i)⟩ := rfl
      rw [List.length_cons, runShuffle_succ_active, hstep]
      simp [ih]

/-- C4: the first `N` yields of the shuffle scheduler are a permutation
of the input list (for distinct test cases each appears exactly once),
and with repeat off the generator terminates right after those `N`
yields; a terminated generator yields nothing more. -/
theorem shuffle_first_pass_perm [DecidableEq γ] (rnd : Nat → Nat)
    (durs rs : Nat → ℚ) (l : List γ) :
    (py_shuffle rnd l).Perm l
    ∧ runShuffle false durs rs 0 (l.length + 1)
        (GenOutcome.active (shuffle_init rnd l)) =
      (py_shuffle rnd l, GenOutcome.stopped)
    ∧ (l.Nodup → ∀ x ∈ l,
        (runShuffle false durs rs 0 (l.length + 1)
          (GenOutcome.active (shuffle_init rnd l))).1.count x = 1)
    ∧ (∀ i n, runShuffle false durs rs i n
        (GenOutcome.stopped : GenOutcome γ) = ([], GenOutcome.stopped)) := by
  have hperm := py_shuffle_perm rnd l
  have hlen : (py_shuffle rnd l).length = l.length := hperm.length_eq
  have hrun : runShuffle false durs rs 0 (l.length + 1)
      (GenOutcome.active (shuffle_init rnd l)) =
      (py_shuffle rnd l, GenOutcome.stopped) := by
    rw [← hlen]
    exact runShuffle_pending_stop durs rs (py_shuffle rnd l) none _ 0
  refine ⟨hperm, hrun, ?_, ?_⟩
  · intro hnd x hx
    rw [hrun]
    exact (hperm.count_eq x).trans (List.count_eq_one_of_mem hnd hx)
  · intro i n
    cases n <;> rfl

/-- Witness for C4 at a concrete input: the first pass over the distinct
test cases [0, 1, 2] yields test 1 exactly once. -/
theorem shuffle_first_pass_perm_witness :
    ((runShuffle false (fun _ => (0 : ℚ)) (fun _ => (0 : ℚ)) 0 4
      (GenOutcome.active
        (shuffle_init (fun _ => 0) ([0, 1, 2] : List Nat)))).1).count 1
      = 1 :=
  (shuffle_first_pass_perm (fun _ => 0) (fun _ => (0 : ℚ))
    (fun _ => (0 : ℚ)) [0, 1, 2]).2.2.1 (by decide) 1 (by decide)

/-! ### Claims about the `shuffle` scheduler: timing invariant -/

/-- Membership in a dict insertion comes from the old dict or is the
inserted pair. -/
theorem dictInsert_mem [DecidableEq γ] (d : List (γ × β)) (k : γ) (v : β)
    (p : γ × β) (hp : p ∈ dictInsert d k v) : p ∈ d ∨ p = (k, v) := by
  unfold dictInsert at hp
  by_cases hc : (d.map Prod.fst).contains k
  · rw [if_pos hc] at hp
    obtain ⟨q, hq, hqe⟩ := List.mem_map.mp hp
    by_cases hqk : q.1 = k
    · right
      rw [if_pos hqk] at hqe
      exact hqe.symm
    · left
      rw [if_neg hqk] at hqe
      exact hqe ▸ hq
  · rw [if_neg hc] at hp
    rcases List.mem_append.mp hp with h | h
    · exact Or.inl h
    · right
      simpa using h

/-- Every entry of the initial timings dict has value `(0, 0)` and a key
drawn from the given key list. -/
theorem dictInit_entries [DecidableEq γ] (keys : List γ) :
    ∀ p ∈ dictInit keys, p.2 = ((0 : ℚ), (0 : Nat)) ∧ p.1 ∈ keys := by
  have haux : ∀ (ks : List γ) (d : List (γ × ℚ × Nat)),
      ∀ p ∈ ks.foldl (fun d t => dictInsert d t (0, 0)) d,
        (p.2 = ((0 : ℚ), (0 : Nat)) ∧ p.1 ∈ ks) ∨ p ∈ d := by
    intro ks
    induction ks with
    | nil => intro d p hp; exact Or.inr hp
    | cons k rest ih =>
        intro d p hp
        rcases ih (dictInsert d k (0, 0)) p hp with h | h
        · exact Or.inl ⟨h.1, List.mem_cons_of_mem k h.2⟩
        · rcases dictInsert_mem d k (0, 0) p h with h2 | h2
          · exact Or.inr h2
          · left
            rw [h2]
            exact ⟨rfl, List.mem_cons_self k rest⟩
  intro p hp
  rcases haux keys [] p hp with h | h
  · exact h
  · cases h

/-- Membership in an updated timings dict: each entry is an old entry,
either bumped (when its key is the updated one) or untouched. -/
theorem dictUpdate_mem [DecidableEq γ] (d : List (γ × ℚ × Nat)) (k : γ)
    (dur : ℚ) (p : γ × ℚ × Nat) (hp : p ∈ dictUpdate d k dur) :
    ∃ q ∈ d, (q.1 = k ∧ p = (q.1, q.2.1 + dur, q.2.2 + 1))
      ∨ (q.1 ≠ k ∧ p = q) := by
  unfold dictUpdate at hp
  obtain ⟨q, hq, hqe⟩ := List.mem_map.mp hp
  refine ⟨q, hq, ?_⟩
  by_cases hqk : q.1 = k
  · left
    exact ⟨hqk, by rw [← hqe, if_pos hqk]⟩
  · right
    exact ⟨hqk, by rw [← hqe, if_neg hqk]⟩

/-- After the timing update of a resumption with a positive measured
duration, every entry keeps the invariant clauses and is either already
observed (`run_count ≥ 1`) or belongs to a still-pending first-pass
test. -/
theorem updTimings_inv [DecidableEq γ] (s : ShuffleGen γ) (dur : ℚ)
    (hdur : 0 < dur) (hinv : ShuffleInvariant s) :
    ∀ p ∈ updTimings s dur,
      (p.2.2 = 0 ↔ p.2.1 = 0) ∧ 0 ≤ p.2.1
      ∧ (1 ≤ p.2.2 ∨ p.1 ∈ s.pending) := by
  obtain ⟨h1, h2, h3⟩ := hinv
  intro p hp
  unfold updTimings at hp
  cases hcur : s.current with
  | none =>
      rw [hcur] at hp
      refine ⟨h1 p hp, h2 p hp, ?_⟩
      rcases h3 p hp with h | h | h
      · exact Or.inl h
      · rw [hcur] at h; cases h
      · exact Or.inr h
  | some c =>
      rw [hcur] at hp
      obtain ⟨q, hq, hcase⟩ := dictUpdate_mem s.timings c dur p hp
      rcases hcase with ⟨hqk, hpe⟩ | ⟨hqk, hpe⟩
      · have hq2 := h2 q hq
        have hd : 0 < q.2.1 + dur := by linarith
        rw [hpe]
        refine ⟨?_, by simpa using le_of_lt hd, Or.inl (by simp)⟩
        simp only
        constructor
        · intro h; omega
        · intro h; exact absurd h (ne_of_gt hd)
      · rw [hpe]
        refine ⟨h1 q hq, h2 q hq, ?_⟩
        rcases h3 q hq with h | h | h
        · exact Or.inl h
        · rw [hcur] at h
          injection h with h
          exact absurd h.symm hqk
        · exact Or.inr h

/-- Once the first pass is exhausted, the weight list built at the next
resumption is well-defined: every entry has been observed at least once,
so no total duration is zero. -/
theorem buildWeights_isSome_of_inv [DecidableEq γ] (s : ShuffleGen γ)
    (dur : ℚ) (hdur : 0 < dur) (hinv : ShuffleInvariant s)
    (hp : s.pending = []) :
    (∀ p ∈ updTimings s dur, 0 < p.2.1)
    ∧ (buildWeights (updTimings s dur)).isSome := by
  have h := updTimings_inv s dur hdur hinv
  have hpos : ∀ p ∈ updTimings s dur, 0 < p.2.1 := by
    intro p hp2
    obtain ⟨hiff, hge, hor⟩ := h p hp2
    have hc : 1 ≤ p.2.2 := by
      rcases hor with h1 | h1
      · exact h1
      · rw [hp] at h1; cases h1
    have hne : p.2.1 ≠ 0 := fun h0 => by
      have := hiff.mpr h0
      omega
    exact lt_of_le_of_ne hge (Ne.symm hne)
  refine ⟨hpos, ?_⟩
  unfold buildWeights
  rw [if_pos]
  · rfl
  · rw [List.all_eq_true]
    intro p hp2
    have := hpos p hp2
    simp only [decide_eq_true_eq]
    exact ne_of_gt this

/-- A resumption that yields preserves the shuffle invariant, provided
the measured duration is positive. -/
theorem shuffle_step_inv [DecidableEq γ] (rep : Bool) (dur r : ℚ)
    (hdur : 0 < dur) (s : ShuffleGen γ) (hinv : ShuffleInvariant s)
    (t : γ) (s1 : ShuffleGen γ)
    (hstep : shuffle_step rep dur r s = StepRes.yld t s1) :
    ShuffleInvariant s1 := by
  have hup := updTimings_inv s dur hdur hinv
  cases hp : s.pending with
  | cons t0 rest =>
      have hred : shuffle_step rep dur r s =
          StepRes.yld t0 ⟨rest, some t0, updTimings s dur⟩ := by
        unfold shuffle_step
        rw [hp]
      rw [hred] at hstep
      injection hstep with ht hs1
      subst hs1
      refine ⟨fun p hp2 => (hup p hp2).1, fun p hp2 => (hup p hp2).2.1, ?_⟩
      intro p hp2
      rcases (hup p hp2).2.2 with h | h
      · exact Or.inl h
      · rw [hp] at h
        rcases List.mem_cons.mp h with h2 | h2
        · exact Or.inr (Or.inl (by rw [h2]))
        · exact Or.inr (Or.inr h2)
  | nil =>
      cases hrep : rep with
      | false =>
          have : shuffle_step rep dur r s = StepRes.stop := by
            unfold shuffle_step
            rw [hp, hrep]
            rfl
          rw [this] at hstep
          cases hstep
      | true =>
          cases hbw : buildWeights (updTimings s dur) with
          | none =>
              have : shuffle_step rep dur r s = StepRes.err := by
                unfold shuffle_step
                rw [hp, hrep]
                simp [hbw]
              rw [this] at hstep
              cases hstep
          | some ws =>
              cases hwc : weighted_choice ws r with
              | none =>
                  have : shuffle_step rep dur r s = StepRes.err := by
                    unfold shuffle_step
                    rw [hp, hrep]
                    simp [hbw, hwc]
                  rw [this] at hstep
                  cases hstep
              | some t2 =>
                  have : shuffle_step rep dur r s =
                      StepRes.yld t2 ⟨[], some t2, updTimings s dur⟩ := by
                    unfold shuffle_step
                    rw [hp, hrep]
                    simp [hbw, hwc]
                  rw [this] at hstep
                  injection hstep with ht hs1
                  subst hs1
                  refine ⟨fun p hp2 => (hup p hp2).1,
                    fun p hp2 => (hup p hp2).2.1, ?_⟩
                  intro p hp2
                  rcases (hup p hp2).2.2 with h | h
                  · exact Or.inl h
                  · rw [hp] at h
                    cases h

/-- The initial shuffle generator state satisfies the invariant. -/
theorem shuffle_init_inv [DecidableEq γ] (rnd : Nat → Nat) (l : List γ) :
    ShuffleInvariant (shuffle_init rnd l) := by
  refine ⟨?_, ?_, ?_⟩ <;> intro p hp <;>
    obtain ⟨hv, hk⟩ := dictInit_entries (py_shuffle rnd l) p hp
  · simp [hv]
  · simp [hv]
  · exact Or.inr (Or.inr hk)

/-- Driving the generator any number of resumptions with positive
durations preserves the invariant. -/
theorem runShuffle_inv [DecidableEq γ] (rep : Bool) (durs rs : Nat → ℚ)
    (hdurs : ∀ k, 0 < durs k) :
    ∀ (n i : Nat) (s : ShuffleGen γ), ShuffleInvariant s →
      ∀ s1, (runShuffle rep durs rs i n (GenOutcome.active s)).2 =
        GenOutcome.active s1 → ShuffleInvariant s1 := by
  intro n
  induction n with
  | zero =>
      intro i s hs s1 h
      injection h with h
      rw [← h]
      exact hs
  | succ n ih =>
      intro i s hs s1 h
      rw [runShuffle_succ_active] at h
      cases hstep : shuffle_step rep (durs i) (rs i) s with
      | yld t s2 =>
          rw [hstep] at h
          simp only at h
          exact ih (i + 1) s2
            (shuffle_step_inv rep (durs i) (rs i) (hdurs i) s hs t s2 hstep)
            s1 h
      | stop =>
          rw [hstep] at h
          simp at h
      | err =>
          rw [hstep] at h
          simp at h

/-- C5 (amended): provided every measured run duration is strictly
positive, every timing entry satisfies `run_count = 0 ↔
total_duration = 0` at every point between yields, and once the first
pass is exhausted every entry of the timings used by the next weighted
draw has positive total duration, so the weight list is well-defined. -/
theorem shuffle_invariant_pos_durations [DecidableEq γ] (rnd : Nat → Nat)
    (durs rs : Nat → ℚ) (l : List γ) (hdurs : ∀ k, 0 < durs k)
    (n : Nat) (s1 : ShuffleGen γ)
    (hrun : (runShuffle true durs rs 0 n
      (GenOutcome.active (shuffle_init rnd l))).2 = GenOutcome.active s1) :
    (∀ p ∈ s1.timings, (p.2.2 = 0 ↔ p.2.1 = 0))
    ∧ (s1.pending = [] →
        (∀ p ∈ updTimings s1 (durs n), 0 < p.2.1)
        ∧ (buildWeights (updTimings s1 (durs n))).isSome) := by
  have hinv := runShuffle_inv true durs rs hdurs n 0 (shuffle_init rnd l)
    (shuffle_init_inv rnd l) s1 hrun
  exact ⟨hinv.1,
    fun hp => buildWeights_isSome_of_inv s1 (durs n) (hdurs n) hinv hp⟩

/-- Witness for the amended C5 at a concrete input: one test, one
resumption with duration 1. -/
theorem shuffle_invariant_pos_durations_witness :
    (∀ p ∈ (ShuffleGen.mk ([] : List Nat) (some 0)
        [(0, (0 : ℚ), 0)]).timings, (p.2.2 = 0 ↔ p.2.1 = 0))
    ∧ ((ShuffleGen.mk ([] : List Nat) (some 0)
        [(0, (0 : ℚ), 0)]).pending = [] →
        (∀ p ∈ updTimings (ShuffleGen.mk ([] : List Nat) (some 0)
            [(0, (0 : ℚ), 0)]) ((1 : ℚ)), 0 < p.2.1)
        ∧ (buildWeights (updTimings (ShuffleGen.mk ([] : List Nat) (some 0)
            [(0, (0 : ℚ), 0)]) ((1 : ℚ)))).isSome) :=
  shuffle_invariant_pos_durations (fun _ => 0) (fun _ => (1 : ℚ))
    (fun _ => (0 : ℚ)) [0] (fun _ => by norm_num) 1
    (ShuffleGen.mk ([] : List Nat) (some 0) [(0, (0 : ℚ), 0)]) rfl

/-- Counterexample to C5 as stated: with a measured duration of 0 (the
clock has finite resolution, so `time.time() - start_time` can be 0),
after the single first-pass run completes the entry has `run_count = 1`
with `total_duration = 0`, violating the claimed invariant; the first
post-first-pass weighted draw then divides by zero and the generator
dies instead of drawing. -/
theorem shuffle_zero_duration_cex :
    (runShuffle true (fun _ => (0 : ℚ)) (fun _ => (0 : ℚ)) 0 1
      (GenOutcome.active (shuffle_init (fun _ => 0) ([0] : List Nat)))).2 =
      GenOutcome.active ⟨[], some 0, [(0, 0, 0)]⟩
    ∧ updTimings (⟨[], some 0, [(0, 0, 0)]⟩ : ShuffleGen Nat) 0 =
      [(0, 0, 1)]
    ∧ ¬ (∀ p ∈ updTimings (⟨[], some 0, [(0, 0, 0)]⟩ : ShuffleGen Nat) 0,
        (p.2.2 = 0 ↔ p.2.1 = 0))
    ∧ buildWeights
        (updTimings (⟨[], some 0, [(0, 0, 0)]⟩ : ShuffleGen Nat) 0) = none
    ∧ runShuffle true (fun _ => (0 : ℚ)) (fun _ => (0 : ℚ)) 0 2
      (GenOutcome.active (shuffle_init (fun _ => 0) ([0] : List Nat))) =
      ([0], GenOutcome.failed) := by
  have hup : updTimings (⟨[], some 0, [(0, 0, 0)]⟩ : ShuffleGen Nat) 0 =
      [(0, 0, 1)] := by
    simp [updTimings, dictUpdate]
  have hbw : buildWeights [((0 : Nat), (0 : ℚ), (1 : Nat))] = none := by
    simp [buildWeights]
  have hstep2 : shuffle_step true (0 : ℚ) (0 : ℚ)
      (⟨[], some 0, [(0, 0, 0)]⟩ : ShuffleGen Nat) = StepRes.err := by
    unfold shuffle_step
    simp [-Prod.mk_zero_zero, hup, hbw]
  have hstep1 : shuffle_step true (0 : ℚ) (0 : ℚ)
      (shuffle_init (fun _ => 0) ([0] : List Nat)) =
      StepRes.yld 0 (⟨[], some 0, [(0, 0, 0)]⟩ : ShuffleGen Nat) := rfl
  refine ⟨rfl, hup, ?_, by rw [hup]; exact hbw, ?_⟩
  · rw [hup]
    intro h
    have h2 := h (0, 0, 1) (by simp)
    simp at h2
  · simp [-Prod.mk_zero_zero, runShuffle_succ_active, hstep1, hstep2]

/-! ### Claim about the private copy of the input list -/

/-- C10: setting up the shuffle scheduler copies the input list before
permuting, so the caller's list object is unchanged, the private copy is
a fresh reference, and only the private copy holds the permuted list.
Every later resumption (`runShuffle`) reads only the private copy and
mutates only the timings dict, never any list object, so the store
returned here is the store after any number of draws. -/
theorem shuffle_preserves_input_list (rnd : Nat → Nat) (σ : PyListStore γ)
    (src : Nat) (hsrc : src < σ.fresh) :
    ((shuffleSetupStore rnd σ src).2.heap src = σ.heap src)
    ∧ (shuffleSetupStore rnd σ src).1 ≠ src
    ∧ (shuffleSetupStore rnd σ src).2.heap (shuffleSetupStore rnd σ src).1
      = py_shuffle rnd (σ.heap src) := by
  have hne : ¬(src = σ.fresh) := by omega
  refine ⟨?_, ?_, ?_⟩
  · simp [shuffleSetupStore, copySlice, randomShuffleInPlace, hne]
  · show σ.fresh ≠ src
    omega
  · simp [shuffleSetupStore, copySlice, randomShuffleInPlace]

/-- Witness for C10 at a concrete store with one allocated list. -/
theorem shuffle_preserves_input_list_witness :
    (shuffleSetupStore (fun _ => 0)
      (PyListStore.mk (fun _ => [1, 2, 3]) 1) 0).2.heap 0 =
      (PyListStore.mk (fun _ => ([1, 2, 3] : List Nat)) 1).heap 0 :=
  (shuffle_preserves_input_list (fun _ => 0)
    (PyListStore.mk (fun _ => [1, 2, 3]) 1) 0 (by decide)).1

end StbtBatchRun
